import Mathlib

set_option maxHeartbeats 1000000

/-!
Shallow embedding of the recurring-event calendar engine of the
Group2-fall2024 event-calendar application (source files `home/utils.py`,
`home/views.py`, `home/forms.py`, `home/models.py`), together with proofs
about the spec's claims on recurrence expansion, day-cell rendering, the
creation-time materializer, and the calendar access gate.

Dates are modelled as (year, month, day) triples with the Gregorian rules
Python's `datetime.date` implements; `toRD` is the rata-die day number, so
that Python's `(d1 - d2).days` is `toRD d1 - toRD d2`.
-/

/-- Gregorian leap-year rule, as Python's `calendar.isleap`. -/
def isLeap (y : Nat) : Bool :=
  (y % 4 == 0 && y % 100 != 0) || (y % 400 == 0)

/-- Number of days of month `m` (1..12) — `calendar.monthrange(year, month)[1]`.
Months outside 1..12 are given length 0 (they never arise from a valid date). -/
def monthLength (leap : Bool) (m : Nat) : Nat :=
  match m with
  | 1 => 31
  | 2 => if leap then 29 else 28
  | 3 => 31
  | 4 => 30
  | 5 => 31
  | 6 => 30
  | 7 => 31
  | 8 => 31
  | 9 => 30
  | 10 => 31
  | 11 => 30
  | 12 => 31
  | _ => 0

/-- A calendar date, as carried by Python's `datetime.date`. -/
structure Date where
  year : Nat
  month : Nat
  day : Nat
  deriving DecidableEq, Repr

/-- The triples `datetime.date` accepts: year at least 1, month 1..12,
day within the month. -/
def Date.Valid (d : Date) : Prop :=
  1 ≤ d.year ∧ 1 ≤ d.month ∧ d.month ≤ 12 ∧ 1 ≤ d.day ∧
    d.day ≤ monthLength (isLeap d.year) d.month

instance (d : Date) : Decidable d.Valid := by
  unfold Date.Valid; infer_instance

/-- Python `date.__lt__`: lexicographic comparison on (year, month, day). -/
def dateLtB (a b : Date) : Bool :=
  decide (a.year < b.year ∨ (a.year = b.year ∧
    (a.month < b.month ∨ (a.month = b.month ∧ a.day < b.day))))

/-- Python `date.__le__`. -/
def dateLeB (a b : Date) : Bool :=
  dateLtB a b || a == b

/-- Days strictly before January 1 of year `y` in the proleptic Gregorian
calendar (so January 1 of year 1 has rata-die number 1). -/
def daysBeforeYear (y : Nat) : Nat :=
  365 * (y - 1) + (y - 1) / 4 + (y - 1) / 400 - (y - 1) / 100

/-- Days of a year strictly before month `m`. -/
def daysBeforeMonth (leap : Bool) : Nat → Nat
  | 0 => 0
  | m + 1 => daysBeforeMonth leap m + monthLength leap m

/-- Rata-die day number of a date; Python's `(d1 - d2).days` equals
`toRD d1 - toRD d2` (as integers). -/
def toRD (d : Date) : Nat :=
  daysBeforeYear d.year + daysBeforeMonth (isLeap d.year) d.month + d.day

/-- The next calendar day — `d + timedelta(days=1)` on Python dates. -/
def nextDate (d : Date) : Date :=
  if d.day < monthLength (isLeap d.year) d.month then ⟨d.year, d.month, d.day + 1⟩
  else if d.month < 12 then ⟨d.year, d.month + 1, 1⟩
  else ⟨d.year + 1, 1, 1⟩

/-- `d + timedelta(days=n)` on Python dates. -/
def addDays (n : Nat) (d : Date) : Date :=
  nextDate^[n] d

theorem dateLtB_iff {a b : Date} : dateLtB a b = true ↔
    (a.year < b.year ∨ (a.year = b.year ∧
      (a.month < b.month ∨ (a.month = b.month ∧ a.day < b.day)))) := by
  simp [dateLtB]

theorem dateLeB_iff {a b : Date} : dateLeB a b = true ↔
    (dateLtB a b = true ∨ a = b) := by
  simp [dateLeB, beq_iff_eq]

theorem date_trichotomy (a b : Date) :
    dateLtB a b = true ∨ a = b ∨ dateLtB b a = true := by
  rcases a with ⟨ay, am, ad⟩
  rcases b with ⟨by_, bm, bd⟩
  simp only [dateLtB, decide_eq_true_eq, Date.mk.injEq]
  omega

theorem daysBeforeMonth_succ (leap : Bool) (m : Nat) :
    daysBeforeMonth leap (m + 1) = daysBeforeMonth leap m + monthLength leap m :=
  rfl

theorem daysBeforeMonth_bound :
    ∀ (leap : Bool), ∀ m1 < 14, ∀ m2 < 14, m1 < m2 →
      daysBeforeMonth leap m1 + monthLength leap m1 ≤ daysBeforeMonth leap m2 := by
  decide

theorem daysBeforeMonth_13 (leap : Bool) :
    daysBeforeMonth leap 13 = if leap then 366 else 365 := by
  cases leap <;> decide

theorem monthLength_pos : ∀ (leap : Bool), ∀ m < 13, 1 ≤ m → 1 ≤ monthLength leap m := by
  decide

theorem monthLength_first (leap : Bool) : monthLength leap 1 = 31 := rfl

theorem monthLength_last (leap : Bool) : monthLength leap 12 = 31 := rfl

theorem daysBeforeYear_succ (y : Nat) (hy : 1 ≤ y) :
    daysBeforeYear (y + 1) = daysBeforeYear y + (if isLeap y then 366 else 365) := by
  obtain ⟨x, rfl⟩ : ∃ x, y = x + 1 := ⟨y - 1, by omega⟩
  by_cases h4 : (x + 1) % 4 = 0 <;> by_cases h100 : (x + 1) % 100 = 0 <;>
    by_cases h400 : (x + 1) % 400 = 0 <;>
    simp [daysBeforeYear, isLeap, h4, h100, h400] <;> omega

theorem daysBeforeYear_le_succ (n : Nat) : daysBeforeYear n ≤ daysBeforeYear (n + 1) := by
  match n with
  | 0 => exact Nat.le_refl _
  | m + 1 =>
    rw [daysBeforeYear_succ (m + 1) (by omega)]
    split <;> omega

theorem daysBeforeYear_mono {a b : Nat} (h : a ≤ b) :
    daysBeforeYear a ≤ daysBeforeYear b := by
  induction b with
  | zero => simp_all
  | succ k ih =>
    rcases Nat.lt_or_ge a (k + 1) with hlt | hge
    · exact Nat.le_trans (ih (by omega)) (daysBeforeYear_le_succ k)
    · have : a = k + 1 := by omega
      subst this
      exact Nat.le_refl _

theorem toRD_lt_of_lt {a b : Date} (ha : a.Valid) (hb : b.Valid)
    (h : dateLtB a b = true) : toRD a < toRD b := by
  obtain ⟨hya, hma1, hma2, hda1, hda2⟩ := ha
  obtain ⟨hyb, hmb1, hmb2, hdb1, hdb2⟩ := hb
  rw [dateLtB_iff] at h
  unfold toRD
  rcases h with hy | ⟨hy, hm | ⟨hm, hd⟩⟩
  · -- a.year < b.year
    have h1 : daysBeforeMonth (isLeap a.year) a.month + monthLength (isLeap a.year) a.month ≤
        daysBeforeMonth (isLeap a.year) 13 :=
      daysBeforeMonth_bound (isLeap a.year) a.month (by omega) 13 (by omega) (by omega)
    have h2 : daysBeforeYear a.year + daysBeforeMonth (isLeap a.year) 13 =
        daysBeforeYear (a.year + 1) := by
      rw [daysBeforeYear_succ a.year hya, daysBeforeMonth_13]
    have h4 : daysBeforeYear (a.year + 1) ≤ daysBeforeYear b.year :=
      daysBeforeYear_mono (by omega)
    omega
  · -- same year, a.month < b.month
    rw [hy]
    have h1 : daysBeforeMonth (isLeap b.year) a.month + monthLength (isLeap b.year) a.month ≤
        daysBeforeMonth (isLeap b.year) b.month :=
      daysBeforeMonth_bound (isLeap b.year) a.month (by omega) b.month (by omega) hm
    rw [hy] at hda2
    omega
  · -- same year and month, a.day < b.day
    rw [hy, hm]
    omega

theorem toRD_le_of_le {a b : Date} (ha : a.Valid) (hb : b.Valid)
    (h : dateLeB a b = true) : toRD a ≤ toRD b := by
  rw [dateLeB_iff] at h
  rcases h with h | rfl
  · exact Nat.le_of_lt (toRD_lt_of_lt ha hb h)
  · exact Nat.le_refl _

theorem dateLeB_of_toRD_le {a b : Date} (ha : a.Valid) (hb : b.Valid)
    (h : toRD a ≤ toRD b) : dateLeB a b = true := by
  rcases date_trichotomy a b with hlt | heq | hgt
  · rw [dateLeB_iff]; exact Or.inl hlt
  · rw [dateLeB_iff]; exact Or.inr heq
  · exact absurd (toRD_lt_of_lt hb ha hgt) (by omega)

theorem dateLtB_of_toRD_lt {a b : Date} (ha : a.Valid) (hb : b.Valid)
    (h : toRD a < toRD b) : dateLtB a b = true := by
  rcases date_trichotomy a b with hlt | heq | hgt
  · exact hlt
  · subst heq; omega
  · exact absurd (toRD_lt_of_lt hb ha hgt) (by omega)

theorem toRD_injOn_valid {a b : Date} (ha : a.Valid) (hb : b.Valid)
    (h : toRD a = toRD b) : a = b := by
  rcases date_trichotomy a b with hlt | heq | hgt
  · exact absurd (toRD_lt_of_lt ha hb hlt) (by omega)
  · exact heq
  · exact absurd (toRD_lt_of_lt hb ha hgt) (by omega)

theorem nextDate_valid {d : Date} (h : d.Valid) : (nextDate d).Valid := by
  obtain ⟨h1, h2, h3, h4, h5⟩ := h
  unfold nextDate
  split
  · refine ⟨h1, h2, h3, ?_, ?_⟩
    · show 1 ≤ d.day + 1
      omega
    · show d.day + 1 ≤ monthLength (isLeap d.year) d.month
      omega
  · split
    · refine ⟨h1, ?_, ?_, ?_, ?_⟩
      · show 1 ≤ d.month + 1
        omega
      · show d.month + 1 ≤ 12
        omega
      · show 1 ≤ 1
        omega
      · show 1 ≤ monthLength (isLeap d.year) (d.month + 1)
        exact monthLength_pos (isLeap d.year) (d.month + 1) (by omega) (by omega)
    · refine ⟨?_, ?_, ?_, ?_, ?_⟩
      · show 1 ≤ d.year + 1
        omega
      · show 1 ≤ 1
        omega
      · show (1 : Nat) ≤ 12
        omega
      · show 1 ≤ 1
        omega
      · show 1 ≤ monthLength (isLeap (d.year + 1)) 1
        rw [monthLength_first]
        omega

theorem toRD_nextDate {d : Date} (h : d.Valid) : toRD (nextDate d) = toRD d + 1 := by
  obtain ⟨h1, h2, h3, h4, h5⟩ := h
  unfold nextDate
  split
  · show toRD ⟨d.year, d.month, d.day + 1⟩ = toRD d + 1
    unfold toRD
    dsimp only
    omega
  · rename_i hday
    split
    · rename_i hmon
      show toRD ⟨d.year, d.month + 1, 1⟩ = toRD d + 1
      unfold toRD
      dsimp only
      rw [daysBeforeMonth_succ]
      omega
    · rename_i hmon
      have hm12 : d.month = 12 := by omega
      have hd31 : d.day = 31 := by
        rw [hm12, monthLength_last] at h5
        rw [hm12, monthLength_last] at hday
        omega
      show toRD ⟨d.year + 1, 1, 1⟩ = toRD d + 1
      unfold toRD
      dsimp only
      have e1 : daysBeforeMonth (isLeap (d.year + 1)) 1 = 0 := by
        cases isLeap (d.year + 1) <;> rfl
      have e4 : daysBeforeMonth (isLeap d.year) 13 =
          daysBeforeMonth (isLeap d.year) 12 + 31 := by
        rw [daysBeforeMonth_succ, monthLength_last]
      rw [e1, hm12, hd31]
      have e2 := daysBeforeMonth_13 (isLeap d.year)
      have e3 := daysBeforeYear_succ d.year h1
      cases hl : isLeap d.year with
      | true =>
        rw [hl] at e2 e3 e4
        simp at e2 e3
        omega
      | false =>
        rw [hl] at e2 e3 e4
        simp at e2 e3
        omega

theorem addDays_succ (n : Nat) (d : Date) : addDays (n + 1) d = nextDate (addDays n d) :=
  Function.iterate_succ_apply' nextDate n d

theorem addDays_valid {d : Date} (h : d.Valid) (n : Nat) : (addDays n d).Valid := by
  induction n with
  | zero => exact h
  | succ k ih =>
    rw [addDays_succ]
    exact nextDate_valid ih

theorem toRD_addDays {d : Date} (h : d.Valid) (n : Nat) :
    toRD (addDays n d) = toRD d + n := by
  induction n with
  | zero => rfl
  | succ k ih =>
    rw [addDays_succ, toRD_nextDate (addDays_valid h k), ih]
    omega

/-- Recurrence choices of the `Event` model (`RECURRING_CHOICES` in `models.py`). -/
inductive Recurrence where
  | none
  | daily
  | weekly
  | monthly
  deriving DecidableEq, Repr

/-- A timestamp — `datetime.datetime` at whole-minute precision (the event form
parses `%Y-%m-%dT%H:%M`): a date plus minutes past midnight, ordered
lexicographically as Python orders datetimes. -/
structure DateTime where
  date : Date
  mins : Nat
  deriving DecidableEq, Repr

/-- Python `datetime.__lt__`. -/
def dtLtB (a b : DateTime) : Bool :=
  dateLtB a.date b.date || (a.date == b.date && decide (a.mins < b.mins))

/-- The `Event` model row, restricted to the fields the calendar engine reads
(`models.py`: user, title, description, start_time, end_time, priority,
recurrence, recurrence_end). -/
structure Event where
  user : Nat
  title : String
  description : String
  start_time : DateTime
  end_time : DateTime
  priority : Nat
  recurrence : Recurrence
  recurrence_end : Option Date
  deriving DecidableEq, Repr

/-- Month distance `(current_date.year - start_date.year) * 12 +
(current_date.month - start_date.month)` computed in `get_recurring_events`. -/
def monthDiff (current start : Date) : Int :=
  ((current.year : Int) - (start.year : Int)) * 12 +
    ((current.month : Int) - (start.month : Int))

/-- Membership test of `Calendar.get_recurring_events(events, day)` for the
calendar page `(year, month)` (utils.py lines 109-165): whether the event is
collected into `recurring_events_list` for cell `day`. -/
def recursOn (year month day : Nat) (e : Event) : Bool :=
  -- `max_day = monthrange(self.year, self.month)[1]; if day < 1 or day > max_day: none`
  if day < 1 || monthLength (isLeap year) month < day then false
  else
    -- `current_date = datetime(self.year, self.month, day).date()`;
    -- `start_date = event.start_time.date()`;
    -- `recurrence_end = event.recurrence_end or current_date`
    -- (the two lets are inlined below).
    -- `if event.recurrence != 'none':`
    if e.recurrence == Recurrence.none then false
    else
      -- `if not (start_date <= current_date <= recurrence_end): continue`
      if !(dateLeB e.start_time.date ⟨year, month, day⟩ &&
            dateLeB ⟨year, month, day⟩ (e.recurrence_end.getD ⟨year, month, day⟩)) then false
      else
        match e.recurrence with
        | Recurrence.daily => true
        | Recurrence.weekly =>
            -- `delta_days = (current_date - start_date).days; delta_days % 7 == 0`
            ((toRD ⟨year, month, day⟩ : Int) - (toRD e.start_time.date : Int)) % 7 == 0
        | Recurrence.monthly =>
            -- `month_diff >= 0 and current_date.day == start_date.day`
            decide (0 ≤ monthDiff ⟨year, month, day⟩ e.start_time.date) &&
              (⟨year, month, day⟩ : Date).day == e.start_time.date.day
        | Recurrence.none => false

/-- `Calendar.get_recurring_events`: the returned queryset holds exactly those
events of `events` that `recursOn` accepts (the trailing
`Event.objects.filter(id__in=...)` re-query preserves membership). -/
def get_recurring_events (year month : Nat) (events : List Event) (day : Nat) : List Event :=
  events.filter (recursOn year month day)

theorem Date.eta (d : Date) : (⟨d.year, d.month, d.day⟩ : Date) = d := rfl

theorem mem_get_recurring_events {e : Event} {events : List Event} {year month day : Nat}
    (he : e ∈ events) :
    (e ∈ get_recurring_events year month events day ↔ recursOn year month day e = true) := by
  rw [get_recurring_events, List.mem_filter]
  simp [he]

theorem recursOn_char (e : Event) (d : Date) (hvd : d.Valid)
    (hne : e.recurrence ≠ Recurrence.none) :
    recursOn d.year d.month d.day e =
      (dateLeB e.start_time.date d && dateLeB d (e.recurrence_end.getD d) &&
        (match e.recurrence with
         | Recurrence.daily => true
         | Recurrence.weekly =>
             ((toRD d : Int) - (toRD e.start_time.date : Int)) % 7 == 0
         | Recurrence.monthly =>
             decide (0 ≤ monthDiff d e.start_time.date) && d.day == e.start_time.date.day
         | Recurrence.none => false)) := by
  obtain ⟨hy, hm1, hm2, hd1, hd2⟩ := hvd
  unfold recursOn
  rw [if_neg (by simp; omega)]
  rw [Date.eta]
  rw [if_neg (by simpa using hne)]
  by_cases hcond : (dateLeB e.start_time.date d && dateLeB d (e.recurrence_end.getD d)) = true
  · rw [hcond]
    simp
  · rw [Bool.not_eq_true] at hcond
    rw [hcond]
    simp

theorem dateLeB_refl (a : Date) : dateLeB a a = true := by
  simp [dateLeB]

theorem monthDiff_day_le {s c : Date} (hs : s.Valid) (hc : c.Valid)
    (hmd : 0 ≤ monthDiff c s) (hdd : c.day = s.day) : dateLeB s c = true := by
  rcases s with ⟨sy, sm, sd⟩
  rcases c with ⟨cy, cm, cd⟩
  simp only [Date.Valid] at hs hc
  simp only [dateLeB, dateLtB, monthDiff, Bool.or_eq_true, decide_eq_true_eq, beq_iff_eq,
    Date.mk.injEq] at *
  omega

/-- Concrete event used to refute claim C1 as frozen: monthly recurrence
starting 2024-01-31 with `recurrence_end = 2024-02-15`. -/
def eventC1 : Event :=
  ⟨1, "game night", "monthly game night", ⟨⟨2024, 1, 31⟩, 600⟩, ⟨⟨2024, 1, 31⟩, 660⟩, 2,
    Recurrence.monthly, some ⟨2024, 2, 15⟩⟩

/-- Counterexample to C1 as stated: on 2024-03-31 the month-distance from
2024-01-31 is 2 ≥ 0 and the day-of-month matches, yet the event is not in the
day's recurring occurrences, because 2024-03-31 is past its
`recurrence_end = 2024-02-15` and `get_recurring_events` also checks
`start_date <= current_date <= recurrence_end`. -/
theorem monthly_rule_cex :
    (0 ≤ monthDiff ⟨2024, 3, 31⟩ eventC1.start_time.date ∧
      (⟨2024, 3, 31⟩ : Date).day = eventC1.start_time.date.day) ∧
    eventC1 ∉ get_recurring_events 2024 3 [eventC1] 31 := by
  decide

/-- C1 (amended): for a monthly event with a valid start date and a valid grid
day, the event is in the day's recurring occurrences iff the day is within
the recurrence end bound (when one is set) and the month-distance is ≥ 0 and
the day-of-month equals the start's day-of-month. In particular an event
starting on the 31st yields no occurrence in any month shorter than 31 days
(no roll-to-last-day fallback), and does occur on the 31st of a later
31-day month inside the recurrence range. -/
theorem monthly_occurrence_rule (e : Event) (events : List Event) (cur : Date)
    (he : e ∈ events) (hm : e.recurrence = Recurrence.monthly)
    (hs : e.start_time.date.Valid) (hvc : cur.Valid) :
    (e ∈ get_recurring_events cur.year cur.month events cur.day ↔
      ((∀ re, e.recurrence_end = some re → dateLeB cur re = true) ∧
        0 ≤ monthDiff cur e.start_time.date ∧ cur.day = e.start_time.date.day)) ∧
    (e.start_time.date.day = 31 → monthLength (isLeap cur.year) cur.month < 31 →
      e ∉ get_recurring_events cur.year cur.month events cur.day) ∧
    (e.start_time.date.day = 31 → cur.day = 31 →
      (∀ re, e.recurrence_end = some re → dateLeB cur re = true) →
      0 ≤ monthDiff cur e.start_time.date →
      e ∈ get_recurring_events cur.year cur.month events cur.day) := by
  have hiff : e ∈ get_recurring_events cur.year cur.month events cur.day ↔
      ((∀ re, e.recurrence_end = some re → dateLeB cur re = true) ∧
        0 ≤ monthDiff cur e.start_time.date ∧ cur.day = e.start_time.date.day) := by
    rw [mem_get_recurring_events he, recursOn_char e cur hvc (by rw [hm]; simp), hm]
    constructor
    · intro h
      simp only [Bool.and_eq_true, decide_eq_true_eq, beq_iff_eq] at h
      obtain ⟨⟨hle1, hle2⟩, hmd, hdd⟩ := h
      refine ⟨?_, hmd, hdd⟩
      intro re hre
      rw [hre] at hle2
      simpa using hle2
    · rintro ⟨hrng, hmd, hdd⟩
      have h1 := monthDiff_day_le hs hvc hmd hdd
      have h2 : dateLeB cur (e.recurrence_end.getD cur) = true := by
        cases hre : e.recurrence_end with
        | none => simpa using dateLeB_refl cur
        | some re => simpa using hrng re hre
      simp [h1, h2, hmd, hdd]
  refine ⟨hiff, ?_, ?_⟩
  · intro h31 hlen hmem
    obtain ⟨_, _, hdd⟩ := hiff.mp hmem
    obtain ⟨_, _, _, _, hd2⟩ := hvc
    omega
  · intro h31 hc31 hrng hmd
    exact hiff.mpr ⟨hrng, hmd, by omega⟩

/-- Concrete witness data for `monthly_occurrence_rule`. -/
def eventC1w : Event :=
  ⟨1, "game night", "monthly game night", ⟨⟨2024, 1, 31⟩, 600⟩, ⟨⟨2024, 1, 31⟩, 660⟩, 2,
    Recurrence.monthly, some ⟨2024, 7, 31⟩⟩

/-- Witness for `monthly_occurrence_rule` at a concrete input: the event of
`eventC1w` starting 2024-01-31 is skipped in April 2024 (30 days) and occurs
on 2024-05-31. -/
theorem monthly_occurrence_rule_witness :
    eventC1w ∉ get_recurring_events 2024 4 [eventC1w] 30 ∧
    eventC1w ∈ get_recurring_events 2024 5 [eventC1w] 31 := by
  constructor
  · intro hmem
    have h := (monthly_occurrence_rule eventC1w [eventC1w] ⟨2024, 4, 30⟩
      (by decide) (by decide) (by decide) (by decide)).1
    obtain ⟨_, _, hdd⟩ := h.mp hmem
    exact absurd hdd (by decide)
  · exact (monthly_occurrence_rule eventC1w [eventC1w] ⟨2024, 5, 31⟩
      (by decide) (by decide) (by decide) (by decide)).2.2 (by decide) (by decide)
      (by decide) (by decide)

/-- C2: for a weekly event, on any valid grid day lying between the start date
and the recurrence end, the day's recurring occurrences include the event iff
the day distance `(current_date - start_date).days` is divisible by 7. -/
theorem weekly_occurrence_rule (e : Event) (events : List Event) (cur re : Date)
    (he : e ∈ events)
    (hw : e.recurrence = Recurrence.weekly)
    (hre : e.recurrence_end = some re)
    (hvc : cur.Valid)
    (h1 : dateLeB e.start_time.date cur = true)
    (h2 : dateLeB cur re = true) :
    (e ∈ get_recurring_events cur.year cur.month events cur.day ↔
      ((toRD cur : Int) - (toRD e.start_time.date : Int)) % 7 = 0) := by
  rw [mem_get_recurring_events he, recursOn_char e cur hvc (by rw [hw]; simp), hw, hre]
  simp [h1, h2]

/-- Concrete witness data for `weekly_occurrence_rule`. -/
def eventC2 : Event :=
  ⟨1, "raid", "weekly raid", ⟨⟨2024, 1, 1⟩, 600⟩, ⟨⟨2024, 1, 1⟩, 660⟩, 2,
    Recurrence.weekly, some ⟨2024, 1, 31⟩⟩

/-- Witness for `weekly_occurrence_rule` at a concrete input (2024-01-08,
seven days after the start 2024-01-01). -/
theorem weekly_occurrence_rule_witness :
    (⟨2024, 1, 8⟩ : Date).Valid ∧
    (eventC2 ∈ get_recurring_events 2024 1 [eventC2] 8 ↔
      ((toRD ⟨2024, 1, 8⟩ : Int) - (toRD eventC2.start_time.date : Int)) % 7 = 0) :=
  ⟨by decide,
    weekly_occurrence_rule eventC2 [eventC2] ⟨2024, 1, 8⟩ ⟨2024, 1, 31⟩
      (by decide) (by decide) (by decide) (by decide) (by decide) (by decide)⟩

theorem recursOn_daily_iff (e : Event) (d re : Date) (hd : e.recurrence = Recurrence.daily)
    (hre : e.recurrence_end = some re) (hvd : d.Valid) :
    (recursOn d.year d.month d.day e = true ↔
      (dateLeB e.start_time.date d = true ∧ dateLeB d re = true)) := by
  rw [recursOn_char e d hvd (by rw [hd]; simp), hd, hre]
  simp

theorem ncard_valid_dateInterval (start re : Date) (N : Nat) (hs : start.Valid)
    (hrev : re.Valid) (hN : toRD re = toRD start + N) :
    {d : Date | d.Valid ∧ dateLeB start d = true ∧ dateLeB d re = true}.ncard = N + 1 := by
  have himg : toRD '' {d : Date | d.Valid ∧ dateLeB start d = true ∧ dateLeB d re = true} =
      Set.Icc (toRD start) (toRD start + N) := by
    ext x
    constructor
    · rintro ⟨d, ⟨hv, h1, h2⟩, rfl⟩
      have ha := toRD_le_of_le hs hv h1
      have hb := toRD_le_of_le hv hrev h2
      exact Set.mem_Icc.mpr ⟨by omega, by omega⟩
    · intro hx
      obtain ⟨hx1, hx2⟩ := Set.mem_Icc.mp hx
      refine ⟨addDays (x - toRD start) start, ⟨addDays_valid hs _, ?_, ?_⟩, ?_⟩
      · apply dateLeB_of_toRD_le hs (addDays_valid hs _)
        rw [toRD_addDays hs]
        omega
      · apply dateLeB_of_toRD_le (addDays_valid hs _) hrev
        rw [toRD_addDays hs]
        omega
      · rw [toRD_addDays hs]
        omega
  have hinj : Set.InjOn toRD {d : Date | d.Valid ∧ dateLeB start d = true ∧ dateLeB d re = true} :=
    fun a ha b hb hab => toRD_injOn_valid ha.1 hb.1 hab
  have h1 := Set.ncard_image_of_injOn hinj
  rw [himg] at h1
  rw [← h1, ← Finset.coe_Icc, Set.ncard_coe_Finset, Nat.card_Icc]
  omega

/-- C3: for a daily event with `recurrence_end` exactly `N` days after the
start date, the set of days (valid dates across all months) on which
`get_recurring_events` returns the event has exactly `N + 1` elements. -/
theorem daily_occurrence_count (e : Event) (events : List Event) (re : Date) (N : Nat)
    (he : e ∈ events) (hd : e.recurrence = Recurrence.daily)
    (hre : e.recurrence_end = some re)
    (hs : e.start_time.date.Valid) (hrev : re.Valid)
    (hN : toRD re = toRD e.start_time.date + N) :
    {d : Date | d.Valid ∧ e ∈ get_recurring_events d.year d.month events d.day}.ncard
      = N + 1 := by
  have hset : {d : Date | d.Valid ∧ e ∈ get_recurring_events d.year d.month events d.day} =
      {d : Date | d.Valid ∧ dateLeB e.start_time.date d = true ∧ dateLeB d re = true} := by
    ext d
    simp only [Set.mem_setOf_eq]
    constructor
    · rintro ⟨hv, hmem⟩
      exact ⟨hv, (recursOn_daily_iff e d re hd hre hv).mp
        ((mem_get_recurring_events he).mp hmem)⟩
    · rintro ⟨hv, h1, h2⟩
      exact ⟨hv, (mem_get_recurring_events he).mpr
        ((recursOn_daily_iff e d re hd hre hv).mpr ⟨h1, h2⟩)⟩
  rw [hset]
  exact ncard_valid_dateInterval e.start_time.date re N hs hrev hN

/-- Concrete witness data for `daily_occurrence_count`: the "Standup"
scenario (daily, start 2024-01-01, recurrence end 2024-01-05). -/
def eventC3 : Event :=
  ⟨1, "Standup", "daily standup", ⟨⟨2024, 1, 1⟩, 600⟩, ⟨⟨2024, 1, 1⟩, 630⟩, 2,
    Recurrence.daily, some ⟨2024, 1, 5⟩⟩

/-- Witness for `daily_occurrence_count` at a concrete input: 5 distinct days
carry the occurrence. -/
theorem daily_occurrence_count_witness :
    toRD (⟨2024, 1, 5⟩ : Date) = toRD (⟨2024, 1, 1⟩ : Date) + 4 ∧
    {d : Date | d.Valid ∧ eventC3 ∈ get_recurring_events d.year d.month [eventC3] d.day}.ncard
      = 5 :=
  ⟨by decide,
    daily_occurrence_count eventC3 [eventC3] ⟨2024, 1, 5⟩ 4 (by decide) (by decide)
      (by decide) (by decide) (by decide) (by decide)⟩

/-- The per-cell event set of `Calendar.formatday(day, events)` (utils.py lines
68-105), before ordering: the queryset union
`events.filter(start_time__day=day) | get_recurring_events(events, day)`,
then filtered by `Q(recurrence_end__isnull=True) | Q(start_time__lte=F('recurrence_end'))`.
The union of two sub-querysets of the same base queryset is modelled as a
single filter over `events` (same membership, no duplicates, base row order);
`start_time <= recurrence_end` compares the timestamp's date with the
`recurrence_end` date. -/
def formatday_events (year month : Nat) (events : List Event) (day : Nat) : List Event :=
  (events.filter (fun e => e.start_time.date.day == day || recursOn year month day e)).filter
    (fun e => match e.recurrence_end with
      | Option.none => true
      | some re => dateLeB e.start_time.date re)

/-- Descending-priority relation used by `order_by('-priority')`. -/
def priorityGE (a b : Event) : Prop := b.priority ≤ a.priority

instance : DecidableRel priorityGE := fun a b => Nat.decLe b.priority a.priority

instance : IsTotal Event priorityGE := ⟨fun a b => Nat.le_total b.priority a.priority⟩

instance : IsTrans Event priorityGE := ⟨fun _ _ _ h1 h2 => Nat.le_trans h2 h1⟩

/-- `sorted_events = all_events.order_by('-priority')` (utils.py line 93): a
stable sort of the cell's queryset placing higher priorities first. -/
def formatday_sorted (year month : Nat) (events : List Event) (day : Nat) : List Event :=
  List.insertionSort priorityGE (formatday_events year month events day)

theorem filter_orderedInsert_of_pri (x : Event) (l : List Event) (p : Nat)
    (hx : x.priority = p) :
    (List.orderedInsert priorityGE x l).filter (fun e => e.priority == p) =
      x :: l.filter (fun e => e.priority == p) := by
  induction l with
  | nil => simp [List.orderedInsert, hx]
  | cons b t ih =>
    by_cases hr : priorityGE x b
    · simp [List.orderedInsert, hr, List.filter_cons, hx]
    · have hb : (b.priority == p) = false := by
        simp only [priorityGE] at hr
        simp
        omega
      simp only [List.orderedInsert, if_neg hr, List.filter_cons, hb]
      rw [ih]
      simp [List.filter_cons, hb]

theorem filter_orderedInsert_of_ne (x : Event) (l : List Event) (p : Nat)
    (hx : x.priority ≠ p) :
    (List.orderedInsert priorityGE x l).filter (fun e => e.priority == p) =
      l.filter (fun e => e.priority == p) := by
  induction l with
  | nil => simp [List.orderedInsert, hx]
  | cons b t ih =>
    by_cases hr : priorityGE x b
    · simp [List.orderedInsert, hr, List.filter_cons, hx]
    · simp only [List.orderedInsert, if_neg hr, List.filter_cons]
      rw [ih]

theorem insertionSort_filter_stable (l : List Event) (p : Nat) :
    (List.insertionSort priorityGE l).filter (fun e => e.priority == p) =
      l.filter (fun e => e.priority == p) := by
  induction l with
  | nil => rfl
  | cons x t ih =>
    rw [List.insertionSort]
    by_cases hx : x.priority = p
    · rw [filter_orderedInsert_of_pri x _ p hx, ih]
      simp [List.filter_cons, hx]
    · rw [filter_orderedInsert_of_ne x _ p hx, ih]
      simp [List.filter_cons, hx]

/-- C9: the ordered occurrence list of a rendered day cell is sorted by
descending priority; it is a permutation of the cell's underlying queryset;
and the relative order of the events of any fixed priority equals their
order in the underlying queryset (stability), so the tie order is
deterministic for identical inputs. -/
theorem day_cell_ordering (year month day : Nat) (events : List Event) :
    (formatday_sorted year month events day).Pairwise priorityGE ∧
    (formatday_sorted year month events day).Perm (formatday_events year month events day) ∧
    (∀ p, (formatday_sorted year month events day).filter (fun e => e.priority == p) =
      (formatday_events year month events day).filter (fun e => e.priority == p)) :=
  ⟨List.sorted_insertionSort priorityGE (formatday_events year month events day),
    List.perm_insertionSort priorityGE (formatday_events year month events day),
    fun p => insertionSort_filter_stable (formatday_events year month events day) p⟩

theorem dateLeB_dateLtB_absurd {a b : Date} (h1 : dateLeB a b = true)
    (h2 : dateLtB b a = true) : False := by
  rcases a with ⟨ay, am, ad⟩
  rcases b with ⟨by_, bm, bd⟩
  simp only [dateLeB, dateLtB, Bool.or_eq_true, decide_eq_true_eq, beq_iff_eq,
    Date.mk.injEq] at h1 h2
  omega

/-- C10: every event rendered in a day cell — recurring occurrence or direct
start-date hit — satisfies `recurrence_end` unset or start date ≤
`recurrence_end`; consequently a non-recurring event whose `recurrence_end`
lies before its own start date appears in no cell, even on its start day. -/
theorem day_cell_recurrence_end_invariant :
    (∀ (year month day : Nat) (events : List Event),
      ∀ e ∈ formatday_sorted year month events day,
        e.recurrence_end = Option.none ∨
          ∃ re, e.recurrence_end = some re ∧ dateLeB e.start_time.date re = true) ∧
    (∀ (year month day : Nat) (events : List Event), ∀ (e : Event) (re : Date),
      e.recurrence_end = some re → dateLtB re e.start_time.date = true →
      e ∉ formatday_sorted year month events day) := by
  have hmem : ∀ (year month day : Nat) (events : List Event) (e : Event),
      e ∈ formatday_sorted year month events day →
      (match e.recurrence_end with
        | Option.none => true
        | some re => dateLeB e.start_time.date re) = true := by
    intro year month day events e he
    rw [formatday_sorted] at he
    have he2 := (List.perm_insertionSort priorityGE _).mem_iff.mp he
    rw [formatday_events] at he2
    exact (List.mem_filter.mp he2).2
  constructor
  · intro year month day events e he
    have h := hmem year month day events e he
    cases hre : e.recurrence_end with
    | none => exact Or.inl rfl
    | some re =>
      rw [hre] at h
      exact Or.inr ⟨re, rfl, h⟩
  · intro year month day events e re hre hlt he
    have h := hmem year month day events e he
    rw [hre] at h
    exact dateLeB_dateLtB_absurd h hlt

/-- Concrete witness data for `day_cell_recurrence_end_invariant`: a
non-recurring event whose `recurrence_end` (2024-01-01) precedes its start
date (2024-06-01). -/
def eventC10 : Event :=
  ⟨1, "orphan", "bad recurrence end", ⟨⟨2024, 6, 1⟩, 600⟩, ⟨⟨2024, 6, 1⟩, 660⟩, 2,
    Recurrence.none, some ⟨2024, 1, 1⟩⟩

/-- Witness for `day_cell_recurrence_end_invariant` at a concrete input: the
event is absent from the cell of its own start day 2024-06-01. -/
theorem day_cell_recurrence_end_invariant_witness :
    eventC10 ∉ formatday_sorted 2024 6 [eventC10] 1 :=
  day_cell_recurrence_end_invariant.2 2024 6 1 [eventC10] eventC10 ⟨2024, 1, 1⟩
    (by decide) (by decide)

/-- Python `datetime.__le__`. -/
def dtLeB (a b : DateTime) : Bool :=
  dtLtB a b || a == b

/-- `get_last_day_of_month(year, month)` (views.py lines 266-271): 31 for
December, otherwise the day of `datetime(year, month + 1, 1) - timedelta(days=1)`,
i.e. the length of the month. -/
def get_last_day_of_month (year month : Nat) : Nat :=
  if month == 12 then 31 else monthLength (isLeap year) month

/-- One stride of the materializer loop (views.py lines 347-368): advance
`current_start`/`current_end` by one day, one week, or to the next month with
the current day-of-month clamped to that month's last valid day
(`next_month = (month % 12) + 1`, `next_year = year + month // 12`). -/
def stepTimes (r : Recurrence) (cs ce : DateTime) : DateTime × DateTime :=
  match r with
  | Recurrence.daily => (⟨addDays 1 cs.date, cs.mins⟩, ⟨addDays 1 ce.date, ce.mins⟩)
  | Recurrence.weekly => (⟨addDays 7 cs.date, cs.mins⟩, ⟨addDays 7 ce.date, ce.mins⟩)
  | Recurrence.monthly =>
      (⟨⟨cs.date.year + cs.date.month / 12, cs.date.month % 12 + 1,
          if get_last_day_of_month (cs.date.year + cs.date.month / 12)
              (cs.date.month % 12 + 1) < cs.date.day then
            get_last_day_of_month (cs.date.year + cs.date.month / 12)
              (cs.date.month % 12 + 1)
          else cs.date.day⟩, cs.mins⟩,
       ⟨⟨cs.date.year + cs.date.month / 12, cs.date.month % 12 + 1,
          if get_last_day_of_month (cs.date.year + cs.date.month / 12)
              (cs.date.month % 12 + 1) < cs.date.day then
            get_last_day_of_month (cs.date.year + cs.date.month / 12)
              (cs.date.month % 12 + 1)
          else cs.date.day⟩, ce.mins⟩)
  | Recurrence.none => (cs, ce)

/-- The overlap check of the materializer loop (views.py lines 329-333):
`Event.objects.filter(user=..., start_time__lt=current_end,
end_time__gt=current_start).exists()`. -/
def overlap_exists (store : List Event) (u : Nat) (cs ce : DateTime) : Bool :=
  store.any (fun ev => ev.user == u && dtLtB ev.start_time ce && dtLtB cs ev.end_time)

/-- The standalone row the loop inserts (views.py lines 337-345): same user,
title and description, the candidate times, `recurrence='none'`; the fields
the constructor leaves unset take their model defaults (priority 2, no
recurrence end). -/
def mkOccurrence (proto : Event) (cs ce : DateTime) : Event :=
  ⟨proto.user, proto.title, proto.description, cs, ce, 2, Recurrence.none, Option.none⟩

/-- The submitted `recurrence_end` date converted for the loop comparison
(views.py lines 318-322): midnight at the start of the following day. -/
def recurrenceEndDT (recurrence_end : Date) : DateTime :=
  ⟨addDays 1 recurrence_end, 0⟩

/-- The `while True` materializer loop (views.py lines 325-368), with explicit
fuel: `some store` when the loop reached its `break`
(`current_start > recurrence_end`) within `fuel` body executions, `none` if
the fuel ran out first. -/
def materializeLoop (r : Recurrence) (proto : Event) (endDT : DateTime) :
    Nat → List Event → DateTime → DateTime → Option (List Event)
  | 0, store, cs, _ => if dtLtB endDT cs then some store else Option.none
  | fuel + 1, store, cs, ce =>
      if dtLtB endDT cs then some store
      else
        materializeLoop r proto endDT fuel
          (if overlap_exists store proto.user cs ce then store
           else store ++ [mkOccurrence proto cs ce])
          (stepTimes r cs ce).1 (stepTimes r cs ce).2

theorem get_last_day_eq (y m : Nat) (h1 : 1 ≤ m) (h2 : m ≤ 12) :
    get_last_day_of_month y m = monthLength (isLeap y) m := by
  unfold get_last_day_of_month
  by_cases h : m = 12
  · subst h
    rw [monthLength_last]
    simp
  · simp [h]

theorem stepTimes_fst (r : Recurrence) (cs ce : DateTime) :
    (stepTimes r cs ce).1 =
      ⟨(stepTimes r cs ce).1.date, (stepTimes r cs ce).1.mins⟩ := rfl

theorem stepTimes_daily_fst (cs ce : DateTime) :
    (stepTimes Recurrence.daily cs ce).1 = ⟨addDays 1 cs.date, cs.mins⟩ := by
  simp only [stepTimes]

theorem stepTimes_weekly_fst (cs ce : DateTime) :
    (stepTimes Recurrence.weekly cs ce).1 = ⟨addDays 7 cs.date, cs.mins⟩ := by
  simp only [stepTimes]

theorem stepTimes_monthly_fst (cs ce : DateTime) :
    (stepTimes Recurrence.monthly cs ce).1 =
      ⟨⟨cs.date.year + cs.date.month / 12, cs.date.month % 12 + 1,
          if get_last_day_of_month (cs.date.year + cs.date.month / 12)
              (cs.date.month % 12 + 1) < cs.date.day then
            get_last_day_of_month (cs.date.year + cs.date.month / 12)
              (cs.date.month % 12 + 1)
          else cs.date.day⟩, cs.mins⟩ := by
  simp only [stepTimes]

theorem step_date_valid_and_lt (r : Recurrence) (hr : r ≠ Recurrence.none)
    (cs ce : DateTime) (hv : cs.date.Valid) :
    ((stepTimes r cs ce).1.date.Valid ∧
      toRD cs.date < toRD (stepTimes r cs ce).1.date ∧
      (stepTimes r cs ce).1.mins = cs.mins) := by
  cases r with
  | none => exact absurd rfl hr
  | daily =>
    rw [stepTimes_daily_fst]
    dsimp only
    refine ⟨addDays_valid hv 1, ?_, rfl⟩
    rw [toRD_addDays hv]
    omega
  | weekly =>
    rw [stepTimes_weekly_fst]
    dsimp only
    refine ⟨addDays_valid hv 7, ?_, rfl⟩
    rw [toRD_addDays hv]
    omega
  | monthly =>
    rw [stepTimes_monthly_fst]
    dsimp only
    obtain ⟨h1, h2, h3, h4, h5⟩ := hv
    have hnm1 : 1 ≤ cs.date.month % 12 + 1 := by omega
    have hnm2 : cs.date.month % 12 + 1 ≤ 12 := by omega
    have hld := get_last_day_eq (cs.date.year + cs.date.month / 12)
      (cs.date.month % 12 + 1) hnm1 hnm2
    have hldpos := monthLength_pos (isLeap (cs.date.year + cs.date.month / 12))
      (cs.date.month % 12 + 1) (by omega) hnm1
    have hvnew : (⟨cs.date.year + cs.date.month / 12, cs.date.month % 12 + 1,
        if get_last_day_of_month (cs.date.year + cs.date.month / 12)
            (cs.date.month % 12 + 1) < cs.date.day then
          get_last_day_of_month (cs.date.year + cs.date.month / 12)
            (cs.date.month % 12 + 1)
        else cs.date.day⟩ : Date).Valid := by
      unfold Date.Valid
      dsimp only
      rw [hld]
      refine ⟨by omega, by omega, by omega, ?_, ?_⟩
      · split <;> omega
      · split <;> omega
    refine ⟨hvnew, ?_, rfl⟩
    apply toRD_lt_of_lt ⟨h1, h2, h3, h4, h5⟩ hvnew
    rw [dateLtB_iff]
    dsimp only
    omega

theorem materializeLoop_isSome (r : Recurrence) (hr : r ≠ Recurrence.none)
    (proto : Event) (endDT : DateTime) (hendv : endDT.date.Valid) :
    ∀ (fuel : Nat) (store : List Event) (cs ce : DateTime), cs.date.Valid →
      toRD endDT.date < toRD cs.date + fuel →
      (materializeLoop r proto endDT fuel store cs ce).isSome = true := by
  intro fuel
  induction fuel with
  | zero =>
    intro store cs ce hv hlt
    have hd : dateLtB endDT.date cs.date = true := dateLtB_of_toRD_lt hendv hv (by omega)
    simp [materializeLoop, dtLtB, hd]
  | succ fuel ih =>
    intro store cs ce hv hlt
    by_cases hbr : dtLtB endDT cs = true
    · simp [materializeLoop, hbr]
    · rw [materializeLoop, if_neg (by simp [hbr])]
      obtain ⟨hv', hlt', _⟩ := step_date_valid_and_lt r hr cs ce hv
      exact ih _ _ _ hv' (by omega)

theorem materializeLoop_prefix (r : Recurrence) (proto : Event) (endDT : DateTime) :
    ∀ (fuel : Nat) (store : List Event) (cs ce : DateTime) (final : List Event),
      materializeLoop r proto endDT fuel store cs ce = some final → store <+: final := by
  intro fuel
  induction fuel with
  | zero =>
    intro store cs ce final h
    rw [materializeLoop] at h
    split at h
    · injection h with h
      subst h
      exact List.prefix_refl _
    · exact Option.noConfusion h
  | succ fuel ih =>
    intro store cs ce final h
    rw [materializeLoop] at h
    split at h
    · injection h with h
      subst h
      exact List.prefix_refl _
    · have hp := ih _ _ _ _ h
      by_cases hov : overlap_exists store proto.user cs ce = true
      · rw [if_pos hov] at hp
        exact hp
      · rw [if_neg hov] at hp
        exact List.IsPrefix.trans ⟨[mkOccurrence proto cs ce], rfl⟩ hp

/-- C4: at each live step of the materializer loop, when an existing event of
the same user overlaps the candidate interval under strict interval-overlap
semantics (`existing.start < new.end` and `existing.end > new.start`) the
step is silently skipped (no row added, no error) and iteration continues
with the stepped times; when no overlap exists, exactly the standalone row
with `recurrence = none` and the same title/description/owner is appended
and iteration continues; rows present in the store survive to the loop's
final store. -/
theorem materializer_overlap_step (r : Recurrence) (proto : Event) (endDT : DateTime)
    (fuel : Nat) (store : List Event) (cs ce : DateTime) :
    (dtLtB endDT cs = false → overlap_exists store proto.user cs ce = true →
      materializeLoop r proto endDT (fuel + 1) store cs ce =
        materializeLoop r proto endDT fuel store
          (stepTimes r cs ce).1 (stepTimes r cs ce).2) ∧
    (dtLtB endDT cs = false → overlap_exists store proto.user cs ce = false →
      (materializeLoop r proto endDT (fuel + 1) store cs ce =
        materializeLoop r proto endDT fuel (store ++ [mkOccurrence proto cs ce])
          (stepTimes r cs ce).1 (stepTimes r cs ce).2) ∧
      (mkOccurrence proto cs ce).recurrence = Recurrence.none ∧
      (mkOccurrence proto cs ce).title = proto.title ∧
      (mkOccurrence proto cs ce).description = proto.description ∧
      (mkOccurrence proto cs ce).user = proto.user ∧
      (mkOccurrence proto cs ce).start_time = cs ∧
      (mkOccurrence proto cs ce).end_time = ce) ∧
    (∀ final, materializeLoop r proto endDT fuel store cs ce = some final →
      store <+: final) := by
  refine ⟨?_, ?_, ?_⟩
  · intro hbr hov
    rw [materializeLoop, if_neg (by simp [hbr]), if_pos hov]
  · intro hbr hov
    refine ⟨?_, rfl, rfl, rfl, rfl, rfl, rfl⟩
    rw [materializeLoop, if_neg (by simp [hbr]), if_neg (by simp [hov])]
  · exact fun final h => materializeLoop_prefix r proto endDT fuel store cs ce final h

/-- Concrete witness data for `materializer_overlap_step`: an existing booking
occupying 10:00-11:00 on 2024-01-02. -/
def existingEvent : Event :=
  ⟨1, "busy", "existing booking", ⟨⟨2024, 1, 2⟩, 600⟩, ⟨⟨2024, 1, 2⟩, 660⟩, 2,
    Recurrence.none, Option.none⟩

/-- Concrete witness data: a daily-recurring draft whose occurrence on
2024-01-02 would occupy the same 10:00-11:00 slot. -/
def protoC4 : Event :=
  ⟨1, "standup", "daily standup", ⟨⟨2024, 1, 1⟩, 600⟩, ⟨⟨2024, 1, 1⟩, 660⟩, 2,
    Recurrence.daily, some ⟨2024, 1, 3⟩⟩

/-- Witness for `materializer_overlap_step` at a concrete input: the occupied
step of 2024-01-02 inserts nothing and moves on. -/
theorem materializer_overlap_step_witness :
    dtLtB (recurrenceEndDT ⟨2024, 1, 3⟩) ⟨⟨2024, 1, 2⟩, 600⟩ = false ∧
    overlap_exists [existingEvent] protoC4.user ⟨⟨2024, 1, 2⟩, 600⟩ ⟨⟨2024, 1, 2⟩, 660⟩
      = true ∧
    materializeLoop Recurrence.daily protoC4 (recurrenceEndDT ⟨2024, 1, 3⟩) 3
        [existingEvent] ⟨⟨2024, 1, 2⟩, 600⟩ ⟨⟨2024, 1, 2⟩, 660⟩ =
      materializeLoop Recurrence.daily protoC4 (recurrenceEndDT ⟨2024, 1, 3⟩) 2
        [existingEvent]
        (stepTimes Recurrence.daily ⟨⟨2024, 1, 2⟩, 600⟩ ⟨⟨2024, 1, 2⟩, 660⟩).1
        (stepTimes Recurrence.daily ⟨⟨2024, 1, 2⟩, 600⟩ ⟨⟨2024, 1, 2⟩, 660⟩).2 :=
  ⟨by decide, by decide,
    (materializer_overlap_step Recurrence.daily protoC4 (recurrenceEndDT ⟨2024, 1, 3⟩) 2
      [existingEvent] ⟨⟨2024, 1, 2⟩, 600⟩ ⟨⟨2024, 1, 2⟩, 660⟩).1 (by decide) (by decide)⟩

/-- C5: for a validated recurring creation (recurrence set, recurrence end
present), each loop stride strictly increases `current_start` (day, week and
clamped month steps alike), and the loop reaches its exit
`current_start > recurrence_end` after finitely many strides: some fuel makes
the fuelled loop return its final store. -/
theorem materializer_terminates (r : Recurrence) (proto : Event) (recurrence_end : Date)
    (store : List Event) (cs ce : DateTime)
    (hr : r ≠ Recurrence.none) (hv : cs.date.Valid) (hev : recurrence_end.Valid) :
    toRD cs.date < toRD (stepTimes r cs ce).1.date ∧
    dtLtB cs (stepTimes r cs ce).1 = true ∧
    (∃ fuel final,
      materializeLoop r proto (recurrenceEndDT recurrence_end) fuel store cs ce
        = some final) := by
  obtain ⟨hv', hlt, _⟩ := step_date_valid_and_lt r hr cs ce hv
  refine ⟨hlt, ?_, ?_⟩
  · rw [dtLtB]
    rw [dateLtB_of_toRD_lt hv hv' hlt]
    simp
  · have hendv : (recurrenceEndDT recurrence_end).date.Valid := addDays_valid hev 1
    have h := materializeLoop_isSome r hr proto (recurrenceEndDT recurrence_end) hendv
      (toRD (recurrenceEndDT recurrence_end).date + 1) store cs ce hv
      (by have := toRD_addDays hev 1; omega)
    obtain ⟨final, hfin⟩ := Option.isSome_iff_exists.mp h
    exact ⟨_, final, hfin⟩

/-- Witness for `materializer_terminates` at a concrete input: a monthly
series starting 2024-01-31 10:00 with recurrence end 2024-03-15. -/
theorem materializer_terminates_witness :
    (⟨⟨2024, 1, 31⟩, 600⟩ : DateTime).date.Valid ∧
    (∃ fuel final,
      materializeLoop Recurrence.monthly protoC4 (recurrenceEndDT ⟨2024, 3, 15⟩) fuel []
        ⟨⟨2024, 1, 31⟩, 600⟩ ⟨⟨2024, 1, 31⟩, 660⟩ = some final) :=
  ⟨by decide,
    (materializer_terminates Recurrence.monthly protoC4 ⟨2024, 3, 15⟩ []
      ⟨⟨2024, 1, 31⟩, 600⟩ ⟨⟨2024, 1, 31⟩, 660⟩ (by decide) (by decide) (by decide)).2.2⟩

/-- A `FriendRequest` row (`models.py`): a directed edge with an acceptance
flag. -/
structure FriendRequest where
  from_user : Nat
  to_user : Nat
  accepted : Bool
  deriving DecidableEq, Repr

/-- The accepted-friendship test of `CalendarView.dispatch` and
`is_friend_calendar` (views.py lines 149-153 and 276-280): an accepted
request exists in either direction between the two users. -/
def isFriendOf (reqs : List FriendRequest) (a b : Nat) : Bool :=
  reqs.any (fun r => ((r.from_user == a && r.to_user == b) ||
    (r.from_user == b && r.to_user == a)) && r.accepted)

/-- Outcome of `CalendarView.dispatch` (views.py lines 119-164). -/
inductive Access where
  | allowed
  | redirectIndex
  | redirectOwnCalendar
  deriving DecidableEq, Repr

/-- The access decision of `CalendarView.dispatch` for a request on the
calendar of `owner`: `requester` is the authenticated user id (`none` when
anonymous), `cap` the session's `calendar_access_user_id` (`none` when
unset). The second token comparison is the source's dead re-check. -/
def dispatchDecision (reqs : List FriendRequest) (requester : Option Nat) (owner : Nat)
    (cap : Option Nat) : Access :=
  -- `if token_user_id == user_id: pass`
  if cap == some owner then Access.allowed
  else
    match requester with
    -- `elif not request.user.is_authenticated: return redirect('index')`
    | Option.none => Access.redirectIndex
    | some rid =>
      -- `elif request.user.id != user_id:`
      if rid != owner then
        if isFriendOf reqs rid owner then Access.allowed
        else
          if cap == some owner then Access.allowed else Access.redirectOwnCalendar
      else Access.allowed

theorem dispatch_allowed_of_friend (reqs : List FriendRequest) (x y : Nat)
    (cap : Option Nat) (hf : isFriendOf reqs x y = true) :
    dispatchDecision reqs (some x) y cap = Access.allowed := by
  simp [dispatchDecision, hf]

/-- C6: friendship-derived calendar visibility is symmetric: whenever an
accepted friend request connects users `a` and `b` in either direction, the
dispatch gate allows `a` to view `b`'s calendar and `b` to view `a`'s,
whatever the session capability is. -/
theorem friendship_access_symmetric (reqs : List FriendRequest) (a b : Nat)
    (cap1 cap2 : Option Nat) (r : FriendRequest) (hr : r ∈ reqs)
    (hacc : r.accepted = true)
    (hdir : (r.from_user = a ∧ r.to_user = b) ∨ (r.from_user = b ∧ r.to_user = a)) :
    dispatchDecision reqs (some a) b cap1 = Access.allowed ∧
    dispatchDecision reqs (some b) a cap2 = Access.allowed := by
  have hf : ∀ x y : Nat,
      ((r.from_user = x ∧ r.to_user = y) ∨ (r.from_user = y ∧ r.to_user = x)) →
      isFriendOf reqs x y = true := by
    intro x y hxy
    rw [isFriendOf, List.any_eq_true]
    refine ⟨r, hr, ?_⟩
    simp only [Bool.and_eq_true, Bool.or_eq_true, beq_iff_eq]
    rcases hxy with ⟨h1, h2⟩ | ⟨h1, h2⟩
    · exact ⟨Or.inl ⟨h1, h2⟩, hacc⟩
    · exact ⟨Or.inr ⟨h1, h2⟩, hacc⟩
  exact ⟨dispatch_allowed_of_friend reqs a b cap1 (hf a b hdir),
    dispatch_allowed_of_friend reqs b a cap2 (hf b a (hdir.symm))⟩

/-- Witness for `friendship_access_symmetric` at a concrete input: user 1 sent
a request to user 2 which was accepted. -/
theorem friendship_access_symmetric_witness :
    dispatchDecision [⟨1, 2, true⟩] (some 1) 2 Option.none = Access.allowed ∧
    dispatchDecision [⟨1, 2, true⟩] (some 2) 1 Option.none = Access.allowed :=
  friendship_access_symmetric [⟨1, 2, true⟩] 1 2 Option.none Option.none ⟨1, 2, true⟩
    (by decide) (by decide) (Or.inl ⟨rfl, rfl⟩)

/-- A `CalendarAccess` row (`models.py`): share-token owner and the token, a
`UUIDField` value represented by its 32 lowercase hexadecimal digits. -/
structure CalendarAccess where
  user : Nat
  token : String
  deriving DecidableEq, Repr

/-- Hexadecimal-digit test of Python's `int(hex, 16)` parse. -/
def isHexDigit (c : Char) : Bool :=
  (('0' : Char) ≤ c && c ≤ ('9' : Char)) ||
    (('a' : Char) ≤ c && c ≤ ('f' : Char)) ||
    (('A' : Char) ≤ c && c ≤ ('F' : Char))

/-- The UUID parse that Django's `UUIDField.to_python` applies to the `token`
query string before the lookup (`uuid.UUID(hex=value)`): hyphens are
dropped and the rest must be exactly 32 hexadecimal digits, else a
`ValidationError` is raised; the UUID value is case-insensitive,
represented here by the lowercased digit string. (Python additionally
strips `urn:`/`uuid:` prefixes and braces, wrapper forms the application's
share links never produce.) -/
def parseUUID (s : String) : Option String :=
  let t := (s.data.filter (fun c => c != '-')).map Char.toLower
  if t.length == 32 && t.all isHexDigit then some ⟨t⟩ else Option.none

/-- Outcome of the `calendar_access` view (views.py lines 1026-1051):
`notFound` for an `Http404`, `serverError` for the uncaught
`ValidationError` a malformed token raises inside the `UUIDField` lookup,
otherwise a redirect to the owner's calendar with the session's
`calendar_access_user_id` set to the owner's id. -/
inductive AccessOutcome where
  | notFound
  | serverError
  | redirectCalendar (owner : Nat) (sessionCap : Option Nat)
  deriving DecidableEq, Repr

/-- `calendar_access(request)`: reads the `token` query parameter (`none`
when absent; Python's `if not token` also treats the empty string as
absent) and runs `CalendarAccess.objects.get(token=token)`: a token that
does not parse as a UUID makes `UUIDField.to_python` raise a
`ValidationError` that nothing catches (a server error); a parsed token
matching no row raises `CalendarAccess.DoesNotExist`, caught and turned
into `Http404`; a match records the owner id in the session and redirects
to that owner's calendar. -/
def calendar_access (records : List CalendarAccess) (tokenParam : Option String) :
    AccessOutcome :=
  match tokenParam with
  | Option.none => AccessOutcome.notFound
  | some t =>
    if t == "" then AccessOutcome.notFound
    else
      match parseUUID t with
      | Option.none => AccessOutcome.serverError
      | some u =>
        match records.find? (fun r => r.token == u) with
        | Option.none => AccessOutcome.notFound
        | some r => AccessOutcome.redirectCalendar r.user (some r.user)

theorem parseUUID_ne_empty {t u : String} (h : parseUUID t = some u) : t ≠ "" := by
  intro ht
  subst ht
  exact Option.noConfusion h

theorem calendar_access_eq_found {records : List CalendarAccess} {t u : String}
    {rec : CalendarAccess} (hp : parseUUID t = some u)
    (hfind : records.find? (fun r => r.token == u) = some rec) :
    calendar_access records (some t) =
      AccessOutcome.redirectCalendar rec.user (some rec.user) := by
  rw [calendar_access, if_neg (by simp [parseUUID_ne_empty hp]), hp]
  show (match records.find? (fun r => r.token == u) with
    | Option.none => AccessOutcome.notFound
    | some r => AccessOutcome.redirectCalendar r.user (some r.user)) =
    AccessOutcome.redirectCalendar rec.user (some rec.user)
  rw [hfind]

theorem calendar_access_eq_nomatch {records : List CalendarAccess} {t u : String}
    (hp : parseUUID t = some u)
    (hfind : records.find? (fun r => r.token == u) = Option.none) :
    calendar_access records (some t) = AccessOutcome.notFound := by
  rw [calendar_access, if_neg (by simp [parseUUID_ne_empty hp]), hp]
  show (match records.find? (fun r => r.token == u) with
    | Option.none => AccessOutcome.notFound
    | some r => AccessOutcome.redirectCalendar r.user (some r.user)) =
    AccessOutcome.notFound
  rw [hfind]

/-- C7: presenting a valid share token records exactly the token owner's id
as the session capability, and that capability opens exactly that owner's
calendar: any requester (anonymous included) is allowed on the token owner's
calendar, while for any other owner the capability does not help — an
authenticated non-owner non-friend requester is redirected to their own
calendar, an anonymous requester to the landing page. -/
theorem token_capability_scoped (records : List CalendarAccess) (reqs : List FriendRequest)
    (t u : String) (rec : CalendarAccess)
    (hparse : parseUUID t = some u)
    (hfind : records.find? (fun r => r.token == u) = some rec) :
    calendar_access records (some t) =
      AccessOutcome.redirectCalendar rec.user (some rec.user) ∧
    (∀ requester : Option Nat,
      dispatchDecision reqs requester rec.user (some rec.user) = Access.allowed) ∧
    (∀ owner2 rid : Nat, owner2 ≠ rec.user → rid ≠ owner2 →
      isFriendOf reqs rid owner2 = false →
      dispatchDecision reqs (some rid) owner2 (some rec.user) =
        Access.redirectOwnCalendar) ∧
    (∀ owner2 : Nat, owner2 ≠ rec.user →
      dispatchDecision reqs Option.none owner2 (some rec.user) =
        Access.redirectIndex) := by
  refine ⟨?_, ?_, ?_, ?_⟩
  · exact calendar_access_eq_found hparse hfind
  · intro requester
    simp [dispatchDecision]
  · intro owner2 rid ho2 hrid hfr
    have hcap : ((some rec.user : Option Nat) == some owner2) = false := by
      simp only [beq_eq_false_iff_ne, ne_eq, Option.some.injEq]
      omega
    rw [dispatchDecision, if_neg (by simp [hcap])]
    have hbne : (rid != owner2) = true := by
      simp only [bne_iff_ne, ne_eq]
      omega
    rw [if_pos hbne, hfr]
    rw [if_neg (by simp), if_neg (by simp [hcap])]
  · intro owner2 ho2
    have hcap : ((some rec.user : Option Nat) == some owner2) = false := by
      simp only [beq_eq_false_iff_ne, ne_eq, Option.some.injEq]
      omega
    rw [dispatchDecision, if_neg (by simp [hcap])]

/-- Witness for `token_capability_scoped` at a concrete input: the stored
token of user 7, presented in canonical hyphenated form; user 3 (no
friends) stays locked out of user 9's calendar. -/
theorem token_capability_scoped_witness :
    calendar_access [⟨7, "0123456789abcdef0123456789abcdef"⟩]
        (some "01234567-89ab-cdef-0123-456789abcdef") =
      AccessOutcome.redirectCalendar 7 (some 7) ∧
    dispatchDecision [] (some 3) 7 (some 7) = Access.allowed ∧
    dispatchDecision [] (some 3) 9 (some 7) = Access.redirectOwnCalendar := by
  have h := token_capability_scoped [⟨7, "0123456789abcdef0123456789abcdef"⟩] []
    "01234567-89ab-cdef-0123-456789abcdef" "0123456789abcdef0123456789abcdef"
    ⟨7, "0123456789abcdef0123456789abcdef"⟩ (by decide) (by decide)
  exact ⟨h.1, h.2.1 (some 3), h.2.2.1 9 3 (by decide) (by decide) (by decide)⟩

/-- Counterexample to C8 as stated: the token "nope" is present and matches
no stored record, yet the operation does not return not-found — the UUID
parse inside the field lookup raises an uncaught validation error, a third
outcome the claim excludes. -/
theorem calendar_access_outcomes_cex :
    calendar_access [] (some "nope") = AccessOutcome.serverError ∧
    calendar_access [] (some "nope") ≠ AccessOutcome.notFound := by
  decide

/-- C8 (amended): the shared-calendar access operation returns not-found
exactly when the token parameter is absent (Python's falsiness also treats
an empty string as absent) or is a well-formed UUID matching no stored
`CalendarAccess` record; a present, nonempty token that does not parse as a
UUID escapes as an uncaught validation error (server error); a stored token
redirects to the token owner's calendar with the session capability set to
that owner's id; and no fourth outcome is possible. -/
theorem calendar_access_outcomes (records : List CalendarAccess)
    (tokenParam : Option String) :
    (calendar_access records tokenParam = AccessOutcome.notFound ↔
      (tokenParam = Option.none ∨ tokenParam = some "" ∨
        ∃ t u, tokenParam = some t ∧ parseUUID t = some u ∧
          ∀ r ∈ records, r.token ≠ u)) ∧
    (∀ t, tokenParam = some t → t ≠ "" → parseUUID t = Option.none →
      calendar_access records tokenParam = AccessOutcome.serverError) ∧
    (∀ t u rec, tokenParam = some t → parseUUID t = some u →
      records.find? (fun r => r.token == u) = some rec →
      calendar_access records tokenParam =
        AccessOutcome.redirectCalendar rec.user (some rec.user)) ∧
    (calendar_access records tokenParam = AccessOutcome.notFound ∨
      calendar_access records tokenParam = AccessOutcome.serverError ∨
      ∃ rec, rec ∈ records ∧
        calendar_access records tokenParam =
          AccessOutcome.redirectCalendar rec.user (some rec.user)) := by
  refine ⟨?_, ?_, ?_, ?_⟩
  · constructor
    · intro h
      cases htp : tokenParam with
      | none => exact Or.inl rfl
      | some t =>
        rw [htp] at h
        by_cases ht : t = ""
        · subst ht
          exact Or.inr (Or.inl rfl)
        · cases hp : parseUUID t with
          | none =>
            rw [calendar_access, if_neg (by simp [ht]), hp] at h
            exact AccessOutcome.noConfusion h
          | some u =>
            refine Or.inr (Or.inr ⟨t, u, rfl, hp, ?_⟩)
            cases hfind : records.find? (fun r => r.token == u) with
            | none =>
              intro r hrmem
              have hall := List.find?_eq_none.mp hfind r hrmem
              simpa using hall
            | some rec =>
              rw [calendar_access_eq_found hp hfind] at h
              exact AccessOutcome.noConfusion h
    · intro h
      rcases h with h | h | ⟨t, u, htp, hp, hall⟩
      · rw [h]
        rfl
      · rw [h, calendar_access]
        simp
      · have hfind : records.find? (fun r => r.token == u) = Option.none :=
          List.find?_eq_none.mpr (fun r hr => by simpa using hall r hr)
        rw [htp]
        exact calendar_access_eq_nomatch hp hfind
  · intro t htp ht hp
    rw [htp, calendar_access, if_neg (by simp [ht]), hp]
  · intro t u rec htp hp hfind
    rw [htp]
    exact calendar_access_eq_found hp hfind
  · cases htp : tokenParam with
    | none => exact Or.inl rfl
    | some t =>
      by_cases ht : t = ""
      · subst ht
        left
        rw [calendar_access]
        simp
      · cases hp : parseUUID t with
        | none =>
          right
          left
          rw [calendar_access, if_neg (by simp [ht]), hp]
        | some u =>
          cases hfind : records.find? (fun r => r.token == u) with
          | none =>
            left
            exact calendar_access_eq_nomatch hp hfind
          | some rec =>
            right
            right
            exact ⟨rec, List.mem_of_find?_eq_some hfind,
              calendar_access_eq_found hp hfind⟩

/-- Witness for `calendar_access_outcomes` at a concrete input: the
malformed token "nope" errors, the stored token of user 7 (in hyphenated
form) redirects with the capability set. -/
theorem calendar_access_outcomes_witness :
    calendar_access [⟨7, "0123456789abcdef0123456789abcdef"⟩] (some "nope")
      = AccessOutcome.serverError ∧
    calendar_access [⟨7, "0123456789abcdef0123456789abcdef"⟩]
        (some "01234567-89ab-cdef-0123-456789abcdef")
      = AccessOutcome.redirectCalendar 7 (some 7) :=
  ⟨(calendar_access_outcomes [⟨7, "0123456789abcdef0123456789abcdef"⟩]
      (some "nope")).2.1 "nope" rfl (by decide) (by decide),
    (calendar_access_outcomes [⟨7, "0123456789abcdef0123456789abcdef"⟩]
      (some "01234567-89ab-cdef-0123-456789abcdef")).2.2.1
      "01234567-89ab-cdef-0123-456789abcdef" "0123456789abcdef0123456789abcdef"
      ⟨7, "0123456789abcdef0123456789abcdef"⟩ rfl (by decide) (by decide)⟩
